import Mathlib

set_option maxRecDepth 8000

/-!
Verification of the smart text-chunking and reassembly subsystem of the
shadow-seven-publisher repository (`src/v1_typescript/utils/textChunking.ts`):
`chunkTextSmart`, `mergeEditedChunks` and `validateEditedLength`.

Strings are modelled as `List Char` (JS strings are sequences of UTF-16 code
units; every input considered here is a plain sequence of characters, so a
character list is a faithful model).  JS string primitives (`substring`,
`indexOf`, `lastIndexOf`, `trim`, `split(/\s+/)`, `endsWith`, `startsWith`)
are modelled by the `js*` functions below with the exact clamping and
degenerate-case behaviour of the JS originals.  The JS `while` loop of
`chunkTextSmart` is modelled with explicit fuel returning `Option`; running
out of fuel models non-termination (the top-level wrapper supplies
`text.length + 1` fuel, which is enough whenever the loop makes progress).
JS floating-point numbers in `validateEditedLength` are modelled as exact
rationals; every value reasoned about below is exactly representable.
-/

/-- A JS string, modelled as a list of characters. -/
abbrev JStr := List Char

/-- JS `s.substring(a, b)`: clamps both arguments to `[0, s.length]` and swaps
them when `a > b`.  (Arguments are `Nat` here; the clamp at zero of negative
JS intermediate values is reproduced by truncated `Nat` subtraction at every
call site, matching `Math.max(..., 0)` in the source.) -/
def jsSubstring (s : JStr) (a b : Nat) : JStr :=
  let a' := min a s.length
  let b' := min b s.length
  if a' ≤ b' then (s.take b').drop a' else (s.take a').drop b'

/-- JS `s.substring(a)` (one-argument form): from `a`, clamped, to the end. -/
def jsSubstringFrom (s : JStr) (a : Nat) : JStr :=
  s.drop (min a s.length)

/-- JS `s.indexOf(pat)`: the first index at which `pat` occurs in `s`
(`none` models `-1`).  `s.indexOf("")` is `0`, as in JS. -/
def jsIndexOf (s pat : JStr) : Option Nat :=
  ((List.range (s.length + 1)).filter (fun i => pat.isPrefixOf (s.drop i))).head?

/-- Maximum of a list of naturals (`none` on the empty list).  Models JS
`Math.max(...)` applied to a (possibly empty) array of candidate indices. -/
def natListMax? : List Nat → Option Nat
  | [] => none
  | n :: ns =>
    match natListMax? ns with
    | none => some n
    | some m => some (max n m)

/-- JS `s.lastIndexOf(pat)`: the last index at which `pat` occurs in `s`
(`none` models `-1`). -/
def jsLastIndexOf (s pat : JStr) : Option Nat :=
  natListMax? ((List.range (s.length + 1)).filter (fun i => pat.isPrefixOf (s.drop i)))

/-- The last `n` characters of `s` (all of `s` when `n ≥ s.length`). -/
def lastN (n : Nat) (s : JStr) : JStr :=
  s.drop (s.length - n)

/-- JS `s.endsWith(c)` for a single character `c`. -/
def endsWithChar (s : JStr) (c : Char) : Bool :=
  s.getLast? == some c

/-- JS `s.startsWith(c)` for a single character `c`. -/
def startsWithChar (s : JStr) (c : Char) : Bool :=
  s.head? == some c

/-- `ChunkMetadata` from `textChunking.ts`. -/
structure ChunkMetadata where
  index : Nat
  totalChunks : Nat
  startPosition : Nat
  endPosition : Nat
  overlapStart : JStr
  overlapEnd : JStr
deriving DecidableEq

/-- `SmartChunk` from `textChunking.ts`. -/
structure SmartChunk where
  text : JStr
  metadata : ChunkMetadata
deriving DecidableEq

/-- The six paragraph-break patterns searched by `chunkTextSmart`
(`'\n\n'`, `'\n \n'`, `'.\n'`, `'。\n'`, `'؟\n'`, `'!\n'`). -/
def paragraphPatterns : List JStr :=
  [['\n', '\n'], ['\n', ' ', '\n'], ['.', '\n'], ['。', '\n'], ['؟', '\n'], ['!', '\n']]

/-- The four sentence-break patterns searched by `chunkTextSmart`
(`'. '`, `'。 '`, `'؟ '`, `'! '`). -/
def sentencePatterns : List JStr :=
  [['.', ' '], ['。', ' '], ['؟', ' '], ['!', ' ']]

/-- `Math.max(position + maxChunkSize - 2000, position)` (the truncated `Nat`
subtraction reproduces the clamp of a negative JS value at `0 ≤ position`). -/
def windowStart (position mcs : Nat) : Nat :=
  max (position + mcs - 2000) position

/-- `Math.min(position + maxChunkSize + 2000, text.length)`. -/
def windowEnd (text : JStr) (position mcs : Nat) : Nat :=
  min (position + mcs + 2000) text.length

/-- `searchText = text.substring(searchStart, searchEnd)`. -/
def searchTextAt (text : JStr) (position mcs : Nat) : JStr :=
  jsSubstring text (windowStart position mcs) (windowEnd text position mcs)

/-- `Math.max(...breaks.filter(i => i > 0))` over the `lastIndexOf` results of
a pattern list; `none` models the `-Infinity`/not-found case. -/
def bestBreakOf (patterns : List JStr) (searchText : JStr) : Option Nat :=
  natListMax? ((((patterns.map (jsLastIndexOf searchText)).filterMap id).filter (fun i => 0 < i)))

/-- The `chunkEnd` chosen by one iteration of the `chunkTextSmart` loop:
absorb the whole remainder when it is at most `maxChunkSize + overlapSize`;
otherwise prefer the best paragraph break in the search window, then the best
sentence break, then the hard cutoff `position + maxChunkSize`. -/
def computeChunkEnd (text : JStr) (position mcs os : Nat) : Nat :=
  if text.length - position ≤ mcs + os then text.length
  else
    match bestBreakOf paragraphPatterns (searchTextAt text position mcs) with
    | some b => windowStart position mcs + b + 2
    | none =>
      match bestBreakOf sentencePatterns (searchTextAt text position mcs) with
      | some b => windowStart position mcs + b + 2
      | none => position + mcs

/-- The chunk object pushed by one iteration of the `chunkTextSmart` loop:
`chunkText = text.substring(position, chunkEnd)`, `overlapEnd` the next
`overlapSize` characters after `chunkEnd` (empty at the end of the text),
`totalChunks` zero until backfilled. -/
def mkChunk (text : JStr) (os position chunkEnd idx : Nat) (prevOverlap : JStr) : SmartChunk :=
  { text := jsSubstring text position chunkEnd
    metadata :=
      { index := idx
        totalChunks := 0
        startPosition := position
        endPosition := chunkEnd
        overlapStart := prevOverlap
        overlapEnd :=
          if chunkEnd < text.length then
            jsSubstring text chunkEnd (min (chunkEnd + os) text.length)
          else [] } }

/-- `previousOverlap = chunkText.substring(Math.max(0, chunkText.length - overlapSize))`,
the trailing `overlapSize` characters of the chunk just emitted. -/
def nextPrevOverlap (text : JStr) (os position chunkEnd : Nat) : JStr :=
  jsSubstringFrom (jsSubstring text position chunkEnd)
    ((jsSubstring text position chunkEnd).length - os)

/-- The `while (position < text.length)` loop of `chunkTextSmart`, with fuel.
State: current `position`, `previousOverlap`, and the chunks emitted so far
(in order).  Exhausting the fuel while the loop guard still holds returns
`none`, modelling non-termination. -/
def chunkLoop (text : JStr) (mcs os : Nat) :
    Nat → Nat → JStr → List SmartChunk → Option (List SmartChunk)
  | 0, position, _, acc =>
    if position < text.length then none else some acc
  | fuel + 1, position, prevOverlap, acc =>
    if position < text.length then
      chunkLoop text mcs os fuel (computeChunkEnd text position mcs os)
        (nextPrevOverlap text os position (computeChunkEnd text position mcs os))
        (acc ++ [mkChunk text os position (computeChunkEnd text position mcs os) acc.length prevOverlap])
    else some acc

/-- `chunkTextSmart(text, maxChunkSize, overlapSize)`.  Returns `none` when the
source's `while` loop would not terminate (the supplied fuel `text.length + 1`
is enough for any run in which `position` strictly increases). -/
def chunkTextSmart? (text : JStr) (mcs os : Nat) : Option (List SmartChunk) :=
  if text.length ≤ mcs then
    some [{ text := text
            metadata :=
              { index := 0, totalChunks := 1, startPosition := 0,
                endPosition := text.length, overlapStart := [], overlapEnd := [] } }]
  else
    (chunkLoop text mcs os (text.length + 1) 0 [] []).map fun cs =>
      cs.map fun c => { c with metadata := { c.metadata with totalChunks := cs.length } }

/-- Concatenation of the `text` fields of a chunk sequence, in order. -/
def joinTexts (cs : List SmartChunk) : JStr :=
  (cs.map (fun c => c.text)).flatten

/-- `mergedEnd = merged.substring(Math.max(0, merged.length - 500))`. -/
def mergedEndOf (merged : JStr) : JStr :=
  jsSubstringFrom merged (merged.length - 500)

/-- `currentStart = currentChunk.substring(0, Math.min(500, currentChunk.length))`. -/
def currentStartOf (current : JStr) : JStr :=
  jsSubstring current 0 (min 500 current.length)

/-- The inner `for (let j = ...; j > 50; j--)` search of `mergeEditedChunks`:
returns the first (largest) `j > 50` at or below the starting value for which
the last `j` characters of `mergedEnd` occur in `currentStart`, else `0`. -/
def findOverlapLen (mergedEnd currentStart : JStr) : Nat → Nat
  | 0 => 0
  | j + 1 =>
    if 50 < j + 1 then
      if (jsIndexOf currentStart (jsSubstringFrom mergedEnd (mergedEnd.length - (j + 1)))).isSome
      then j + 1
      else findOverlapLen mergedEnd currentStart j
    else 0

/-- The `bestOverlap` computed at one merge boundary, starting the search at
`Math.min(200, mergedEnd.length)`. -/
def mergeOverlapLen (merged current : JStr) : Nat :=
  findOverlapLen (mergedEndOf merged) (currentStartOf current) (min 200 (mergedEndOf merged).length)

/-- One iteration of the merge loop: either collapse the detected overlap and
append `current`, or concatenate directly, inserting a single space when
neither side of the boundary already has a newline or a space. -/
def mergeStep (merged current : JStr) : JStr :=
  if 0 < mergeOverlapLen merged current then
    jsSubstring merged 0 (merged.length - mergeOverlapLen merged current) ++ current
  else
    (if ¬ endsWithChar merged '\n' ∧ ¬ startsWithChar current '\n' then
      if ¬ endsWithChar merged ' ' ∧ ¬ startsWithChar current ' ' then merged ++ [' ']
      else merged
    else merged) ++ current

/-- `mergeEditedChunks(editedChunks)`. -/
def mergeEditedChunks : List JStr → JStr
  | [] => []
  | [x] => x
  | x :: rest => rest.foldl mergeStep x

/-- Whether one merge boundary takes the plain-concatenation path with no
inserted space: no overlap of length > 50 is detected and one side of the
boundary already ends/starts with a newline or a space. -/
def mergeStepPlainOk (merged current : JStr) : Bool :=
  (mergeOverlapLen merged current == 0) &&
    (endsWithChar merged '\n' || startsWithChar current '\n' ||
     endsWithChar merged ' ' || startsWithChar current ' ')

/-- All boundaries of a merge run are plain (no de-duplication fires, no
space is inserted), accumulating from `merged`. -/
def mergeIsPlainFrom : JStr → List JStr → Bool
  | _, [] => true
  | merged, c :: cs => mergeStepPlainOk merged c && mergeIsPlainFrom (merged ++ c) cs

/-- All boundaries of `mergeEditedChunks l` are plain concatenations. -/
def mergeIsPlain : List JStr → Bool
  | [] => true
  | x :: rest => mergeIsPlainFrom x rest

/-- The whitespace class of the JS `\s` regex and `String.prototype.trim`,
restricted to the characters that can occur in the inputs considered here
(space, tab, LF, VT, FF, CR, NBSP). -/
def jsWhitespaceChar (c : Char) : Bool :=
  c == ' ' || c == '\t' || c == '\n' || c == '\x0b' || c == '\x0c' || c == '\r' || c == ' '

/-- JS `s.trim()`. -/
def jsTrim (s : JStr) : JStr :=
  ((s.dropWhile jsWhitespaceChar).reverse.dropWhile jsWhitespaceChar).reverse

/-- JS `s.split(/\s+/)` with fuel (the wrapper supplies enough): splits at each
maximal whitespace run; a leading or trailing run contributes an empty token,
and `"".split(/\s+/)` is `[""]`. -/
def jsSplitWhiteF : Nat → JStr → List JStr
  | 0, _ => []
  | fuel + 1, s =>
    let tok := s.takeWhile (fun c => ¬ jsWhitespaceChar c)
    match s.dropWhile (fun c => ¬ jsWhitespaceChar c) with
    | [] => [tok]
    | _ :: rest => tok :: jsSplitWhiteF fuel (rest.dropWhile jsWhitespaceChar)

/-- JS `s.split(/\s+/)`. -/
def jsSplitWhite (s : JStr) : List JStr :=
  jsSplitWhiteF (s.length + 1) s

/-- `someText.trim().split(/\s+/).length`, the word count used by
`validateEditedLength` (note: no empty-token filter, unlike `countWords`). -/
def trimSplitLen (s : JStr) : Nat :=
  (jsSplitWhite (jsTrim s)).length

/-- The result record of `validateEditedLength`.  The JS object also carries a
human-readable Arabic `message` string assembled from the same numbers with
`toFixed(1)` formatting; no claim refers to it and it is not modelled. -/
structure LengthCheck where
  isValid : Bool
  ratio : ℚ
deriving DecidableEq

/-- `validateEditedLength(originalText, editedText, tolerancePercent)`.
JS float arithmetic is modelled as exact rational arithmetic. -/
def validateEditedLength (originalText editedText : JStr) (tolerancePercent : ℚ) : LengthCheck :=
  let originalLength := trimSplitLen originalText
  let editedLength := trimSplitLen editedText
  let ratio : ℚ := ((editedLength : ℚ) / (originalLength : ℚ)) * 100
  let difference := |100 - ratio|
  { isValid := decide (difference ≤ tolerancePercent), ratio := ratio }

/-- The overlap-detection condition exactly as claim C7 words it (needle space
is the leading `min(200, current.length)` characters of `current` — the source
uses `min(500, current.length)`): some `j` with `50 < j ≤ min(200, acc.length)`
such that the last `j` characters of `acc` occur in that leading window. -/
def claimDetect (acc cur : JStr) : Bool :=
  (List.range (min 200 acc.length + 1)).any fun j =>
    decide (50 < j) && (jsIndexOf (cur.take (min 200 cur.length)) (lastN j acc)).isSome

/-- Concrete text for the C2 counterexample: 154 copies of `'A'`. -/
def c2text : JStr := List.replicate 154 'A'

/-- Concrete text for the C4 counterexample: 30 `'A'`s, a paragraph break,
30 `'B'`s. -/
def c4text : JStr := List.replicate 30 'A' ++ ['\n', '\n'] ++ List.replicate 30 'B'

/-- Concrete text for the C5 counterexample: `"AAAAA\n\nBBBBB"`. -/
def c5text : JStr := "AAAAA\n\nBBBBB".toList

/-- The spec's de-duplication phrase `"the quick brown fox"`. -/
def quickFox : JStr := "the quick brown fox".toList

/-- Concrete text for the C8 failing input: `"AB"`. -/
def c8text : JStr := ['A', 'B']

/-- Concrete text for the C2 round-trip witness: two paragraph-break-aligned
chunks, `"aaaa.\nbbbb.\ncc"`. -/
def w2text : JStr := "aaaa.\nbbbb.\ncc".toList

/-- The chunk sequence `chunkTextSmart?` produces on `w2text` with
`maxChunkSize = 8`, `overlapSize = 1` (checked by `decide` below). -/
def w2chunks : List SmartChunk :=
  [⟨"aaaa.\nbbbb.\n".toList, ⟨0, 2, 0, 12, [], ['c']⟩⟩,
   ⟨"cc".toList, ⟨1, 2, 12, 14, ['\n'], []⟩⟩]

/-! ### Basic lemmas about the JS string primitives -/

theorem jsSubstring_in_range {s : JStr} {a b : Nat} (h1 : a ≤ b) (h2 : b ≤ s.length) :
    jsSubstring s a b = (s.take b).drop a := by
  unfold jsSubstring
  rw [min_eq_left (le_trans h1 h2), min_eq_left h2, if_pos h1]

theorem length_jsSubstring {s : JStr} {a b : Nat} (h1 : a ≤ b) (h2 : b ≤ s.length) :
    (jsSubstring s a b).length = b - a := by
  rw [jsSubstring_in_range h1 h2]
  simp [List.length_drop, List.length_take]
  omega

theorem jsSubstring_append_drop {s : JStr} {a b : Nat} (h1 : a ≤ b) (h2 : b ≤ s.length) :
    jsSubstring s a b ++ s.drop b = s.drop a := by
  rw [jsSubstring_in_range h1 h2]
  conv_rhs => rw [← List.take_append_drop b s]
  rw [List.drop_append_eq_append_drop]
  have hb : (s.take b).length = b := by simp [List.length_take]; omega
  rw [hb, Nat.sub_eq_zero_of_le h1, List.drop_zero]

theorem jsIndexOf_of_prefix_eq_zero {s pat : JStr} (h : pat <+: s) : jsIndexOf s pat = some 0 := by
  unfold jsIndexOf
  rw [List.range_succ_eq_map]
  rw [List.filter_cons_of_pos]
  · rfl
  · simpa using h

theorem natListMax?_mem : ∀ {l : List Nat} {n : Nat}, natListMax? l = some n → n ∈ l := by
  intro l
  induction l with
  | nil => intro n h; simp [natListMax?] at h
  | cons a as ih =>
    intro n h
    unfold natListMax? at h
    cases hm : natListMax? as with
    | none => rw [hm] at h; simp at h; simp [h]
    | some m =>
      rw [hm] at h
      simp at h
      rcases Nat.le_total a m with hle | hle
      · rw [max_eq_right hle] at h; subst h; exact List.mem_cons_of_mem _ (ih hm)
      · rw [max_eq_left hle] at h; subst h; exact List.mem_cons_self _ _

theorem jsLastIndexOf_some {s pat : JStr} {i : Nat} (h : jsLastIndexOf s pat = some i) :
    i + pat.length ≤ s.length ∧ pat <+: s.drop i := by
  have hmem := natListMax?_mem h
  rw [List.mem_filter] at hmem
  obtain ⟨hrange, hpre⟩ := hmem
  rw [List.mem_range] at hrange
  have hp : pat <+: s.drop i := by simpa using hpre
  refine ⟨?_, hp⟩
  have hlen := hp.length_le
  rw [List.length_drop] at hlen
  omega

theorem bestBreakOf_some {pats : List JStr} {sT : JStr} {b : Nat}
    (h : bestBreakOf pats sT = some b) :
    0 < b ∧ ∃ p ∈ pats, jsLastIndexOf sT p = some b := by
  have hmem := natListMax?_mem h
  rw [List.mem_filter] at hmem
  obtain ⟨hmem, hpos⟩ := hmem
  simp only [List.mem_filterMap, List.mem_map, id_eq] at hmem
  obtain ⟨o, ⟨p, hp, ho⟩, hob⟩ := hmem
  refine ⟨by simpa using hpos, p, hp, ?_⟩
  rw [ho, hob]

theorem paragraphPatterns_two_le : ∀ p ∈ paragraphPatterns, 2 ≤ p.length := by decide

theorem sentencePatterns_two_le : ∀ p ∈ sentencePatterns, 2 ≤ p.length := by decide

/-! ### Bounds on the chunk boundary chosen by one loop iteration -/

theorem windowStart_ge (position mcs : Nat) : position ≤ windowStart position mcs :=
  le_max_right _ _

theorem windowStart_le (position mcs : Nat) : windowStart position mcs ≤ position + mcs :=
  max_le (Nat.sub_le _ _) (Nat.le_add_right _ _)

theorem computeChunkEnd_bounds {text : JStr} {position : Nat} (mcs os : Nat)
    (hm : 0 < mcs) (hp : position < text.length) :
    position < computeChunkEnd text position mcs os ∧
    computeChunkEnd text position mcs os ≤ text.length ∧
    computeChunkEnd text position mcs os - position ≤ mcs + max 2000 os := by
  have hos : os ≤ max 2000 os := le_max_right _ _
  have h2000 : 2000 ≤ max 2000 os := le_max_left _ _
  unfold computeChunkEnd
  by_cases habs : text.length - position ≤ mcs + os
  · rw [if_pos habs]; omega
  · rw [if_neg habs]
    have hlt : position + mcs < text.length := by omega
    have hws₁ := windowStart_ge position mcs
    have hws₂ := windowStart_le position mcs
    have hwe₁ : position + mcs ≤ windowEnd text position mcs :=
      le_min (Nat.le_add_right _ _) (le_of_lt hlt)
    have hwe₂ : windowEnd text position mcs ≤ text.length := min_le_right _ _
    have hwe₃ : windowEnd text position mcs ≤ position + mcs + 2000 := min_le_left _ _
    have hwsle : windowStart position mcs ≤ windowEnd text position mcs := le_trans hws₂ hwe₁
    have hlenT : (searchTextAt text position mcs).length =
        windowEnd text position mcs - windowStart position mcs :=
      length_jsSubstring hwsle hwe₂
    split
    · rename_i b hpb
      obtain ⟨hb0, p, hp', hli⟩ := bestBreakOf_some hpb
      have hbd := (jsLastIndexOf_some hli).1
      have hplen := paragraphPatterns_two_le p hp'
      omega
    · split
      · rename_i b hsb
        obtain ⟨hb0, p, hp', hli⟩ := bestBreakOf_some hsb
        have hbd := (jsLastIndexOf_some hli).1
        have hplen := sentencePatterns_two_le p hp'
        omega
      · omega

/-! ### The chunking loop: termination, partition, size bounds, index order -/

theorem mkChunk_text (text : JStr) (os position chunkEnd idx : Nat) (ov : JStr) :
    (mkChunk text os position chunkEnd idx ov).text = jsSubstring text position chunkEnd := rfl

theorem mkChunk_index (text : JStr) (os position chunkEnd idx : Nat) (ov : JStr) :
    (mkChunk text os position chunkEnd idx ov).metadata.index = idx := rfl

theorem joinTexts_cons (c : SmartChunk) (cs : List SmartChunk) :
    joinTexts (c :: cs) = c.text ++ joinTexts cs := by
  simp [joinTexts]

theorem chunkLoopSpec (text : JStr) (mcs os : Nat) (hm : 0 < mcs) :
    ∀ (fuel pos : Nat) (ov : JStr) (acc : List SmartChunk),
      text.length - pos ≤ fuel →
      ∃ tail, chunkLoop text mcs os fuel pos ov acc = some (acc ++ tail) ∧
        joinTexts tail = text.drop pos ∧
        (∀ c ∈ tail, c.text.length ≤ mcs + max 2000 os ∧ c.text ≠ []) ∧
        tail.map (fun c => c.metadata.index) = List.range' acc.length tail.length := by
  intro fuel
  induction fuel with
  | zero =>
    intro pos ov acc h
    have hnlt : ¬ pos < text.length := by omega
    refine ⟨[], ?_, ?_, ?_, ?_⟩
    · simp [chunkLoop, hnlt]
    · simp [joinTexts, List.drop_eq_nil_of_le (by omega : text.length ≤ pos)]
    · simp
    · simp [List.range']
  | succ f ih =>
    intro pos ov acc h
    by_cases hp : pos < text.length
    · obtain ⟨h1, h2, h3⟩ := computeChunkEnd_bounds mcs os hm hp
      simp only [chunkLoop, if_pos hp]
      obtain ⟨tail', heq, hjoin, hbnd, hidx⟩ :=
        ih (computeChunkEnd text pos mcs os)
          (nextPrevOverlap text os pos (computeChunkEnd text pos mcs os))
          (acc ++ [mkChunk text os pos (computeChunkEnd text pos mcs os) acc.length ov])
          (by omega)
      refine ⟨mkChunk text os pos (computeChunkEnd text pos mcs os) acc.length ov :: tail',
        ?_, ?_, ?_, ?_⟩
      · rw [heq, List.append_assoc]
        rfl
      · rw [joinTexts_cons, hjoin, mkChunk_text]
        exact jsSubstring_append_drop (le_of_lt h1) h2
      · intro c' hc'
        rcases List.mem_cons.mp hc' with hc' | hc'
        · subst hc'
          have hlen : (mkChunk text os pos (computeChunkEnd text pos mcs os)
              acc.length ov).text.length = computeChunkEnd text pos mcs os - pos := by
            rw [mkChunk_text]
            exact length_jsSubstring (le_of_lt h1) h2
          constructor
          · rw [hlen]
            omega
          · intro hnil
            rw [hnil] at hlen
            simp at hlen
            omega
        · exact hbnd c' hc'
      · simp only [List.map_cons, mkChunk_index, List.length_cons, List.range'_succ]
        rw [hidx]
        simp
    · refine ⟨[], ?_, ?_, ?_, ?_⟩
      · simp [chunkLoop, hp]
      · simp [joinTexts, List.drop_eq_nil_of_le (by omega : text.length ≤ pos)]
      · simp
      · simp [List.range']

theorem joinTexts_map_total (cs : List SmartChunk) (n : Nat) :
    joinTexts (cs.map fun c => { c with metadata := { c.metadata with totalChunks := n } })
      = joinTexts cs := by
  unfold joinTexts
  rw [List.map_map]
  rfl

theorem indexMap_map_total (cs : List SmartChunk) (n : Nat) :
    ((cs.map fun c => { c with metadata := { c.metadata with totalChunks := n } }).map
        fun c => c.metadata.index)
      = cs.map fun c => c.metadata.index := by
  rw [List.map_map]
  rfl

/-- Master specification of `chunkTextSmart?` for `maxChunkSize > 0`: it
returns a nonempty chunk list whose texts concatenate to the input, each chunk
text bounded by `maxChunkSize + max 2000 overlapSize` and nonempty when the
input is, with indices `0, 1, 2, ...` in order. -/
theorem chunkSmartSpec (text : JStr) (mcs os : Nat) (hm : 0 < mcs) :
    ∃ cs, chunkTextSmart? text mcs os = some cs ∧ cs ≠ [] ∧
      joinTexts cs = text ∧
      (∀ c ∈ cs, c.text.length ≤ mcs + max 2000 os ∧ (text ≠ [] → c.text ≠ [])) ∧
      cs.map (fun c => c.metadata.index) = List.range cs.length := by
  by_cases hle : text.length ≤ mcs
  · refine ⟨[⟨text, ⟨0, 1, 0, text.length, [], []⟩⟩], ?_, by simp, ?_, ?_, ?_⟩
    · simp [chunkTextSmart?, if_pos hle]
    · simp [joinTexts]
    · intro c hc
      simp at hc
      subst hc
      exact ⟨le_trans hle (Nat.le_add_right _ _), fun h => h⟩
    · rfl
  · obtain ⟨tail, heq, hjoin, hbnd, hidx⟩ :=
      chunkLoopSpec text mcs os hm (text.length + 1) 0 [] [] (by omega)
    rw [List.nil_append] at heq
    rw [List.drop_zero] at hjoin
    have htext : text ≠ [] := by
      intro hnil
      rw [hnil] at hle
      simp at hle
    have htail : tail ≠ [] := by
      intro hnil
      rw [hnil] at hjoin
      exact htext hjoin.symm
    refine ⟨tail.map fun c => { c with metadata := { c.metadata with totalChunks := tail.length } },
      ?_, ?_, ?_, ?_, ?_⟩
    · simp [chunkTextSmart?, if_neg hle, heq]
    · simpa using htail
    · rw [joinTexts_map_total]
      exact hjoin
    · intro c hc
      obtain ⟨c₀, hc₀, rfl⟩ := List.mem_map.mp hc
      exact ⟨(hbnd c₀ hc₀).1, fun _ => (hbnd c₀ hc₀).2⟩
    · rw [indexMap_map_total, List.length_map, hidx]
      simp [List.range_eq_range']

/-! ### Claims C1, C4, C9 (splitter), C5, C8 -/

/-- C1: Partition invariant — for every text (including the empty string and
strings shorter than `maxChunkSize`) and every valid parameter pair
(`maxChunkSize > 0`, `overlapSize ≥ 0`), concatenating the `text` fields of
the chunks returned by `chunkTextSmart`, in index order (indices are
`0, 1, 2, ...` in list order), reproduces the input text exactly. -/
theorem c1_partition_invariant (text : JStr) (mcs os : Nat) (hm : 0 < mcs) :
    ∃ cs, chunkTextSmart? text mcs os = some cs ∧
      joinTexts cs = text ∧
      cs.map (fun c => c.metadata.index) = List.range cs.length := by
  obtain ⟨cs, h1, _, h3, _, h5⟩ := chunkSmartSpec text mcs os hm
  exact ⟨cs, h1, h3, h5⟩

/-- Witness for C1 at `text = "hello"`, `maxChunkSize = 3`, `overlapSize = 1`
(the split is `["hel", "lo"]`). -/
theorem c1_witness :
    0 < 3 ∧
    ∃ cs, chunkTextSmart? "hello".toList 3 1 = some cs ∧
      joinTexts cs = "hello".toList ∧
      cs.map (fun c => c.metadata.index) = List.range cs.length :=
  ⟨by decide, c1_partition_invariant "hello".toList 3 1 (by decide)⟩

/-- C4 counterexample: with `maxChunkSize = 10`, `overlapSize = 0` on
`"A"*30 ++ "\n\n" ++ "B"*30`, the first chunk has length `32 > 10 + 0`:
the paragraph-break search window extends `2000` characters past
`position + maxChunkSize`, so a chunk may exceed `maxChunkSize + overlapSize`. -/
theorem c4_counterexample :
    (chunkTextSmart? c4text 10 0).map (fun cs => cs.all fun c => decide (c.text.length ≤ 10 + 0))
      = some false := by decide

/-- C4 (amended): no chunk produced by `chunkTextSmart` is longer than
`maxChunkSize + max 2000 overlapSize` — the boundary search may overrun
`maxChunkSize` by up to the window half-width `2000` (not `overlapSize`),
and the absorbed tail of step 2a is bounded by `maxChunkSize + overlapSize`,
which the same sum covers. -/
theorem c4_chunk_size_bound (text : JStr) (mcs os : Nat) (hm : 0 < mcs) :
    ∃ cs, chunkTextSmart? text mcs os = some cs ∧
      ∀ c ∈ cs, c.text.length ≤ mcs + max 2000 os := by
  obtain ⟨cs, h1, _, _, h4, _⟩ := chunkSmartSpec text mcs os hm
  exact ⟨cs, h1, fun c hc => (h4 c hc).1⟩

/-- Witness for C4 (amended) at the counterexample input: all chunk lengths
(`32, 10, 10, 10`) are at most `10 + max 2000 0`. -/
theorem c4_witness :
    0 < 10 ∧
    ∃ cs, chunkTextSmart? c4text 10 0 = some cs ∧
      ∀ c ∈ cs, c.text.length ≤ 10 + max 2000 0 :=
  ⟨by decide, c4_chunk_size_bound c4text 10 0 (by decide)⟩

/-- C9: splitter termination — for every text, every `maxChunkSize ≥ 1` and
every `overlapSize ≥ 0`, the `chunkTextSmart` loop terminates (the fuelled
model returns `some`), and every emitted chunk is non-empty whenever the text
is (each iteration chooses `chunkEnd` strictly greater than `position`). -/
theorem c9_termination (text : JStr) (mcs os : Nat) (hm : 1 ≤ mcs) :
    ∃ cs, chunkTextSmart? text mcs os = some cs ∧
      (text ≠ [] → ∀ c ∈ cs, c.text ≠ []) := by
  obtain ⟨cs, h1, _, _, h4, _⟩ := chunkSmartSpec text mcs os hm
  exact ⟨cs, h1, fun ht c hc => (h4 c hc).2 ht⟩

/-- Witness for C9 at `text = "hi there!"`, `maxChunkSize = 4`, `overlapSize = 0`. -/
theorem c9_witness :
    1 ≤ 4 ∧
    ∃ cs, chunkTextSmart? "hi there!".toList 4 0 = some cs ∧
      ("hi there!".toList ≠ [] → ∀ c ∈ cs, c.text ≠ []) :=
  ⟨by decide, c9_termination "hi there!".toList 4 0 (by decide)⟩

/-- C5 counterexample: `"AAAAA\n\nBBBBB"` with `maxChunkSize = 10`,
`overlapSize = 5` is longer than `maxChunkSize` and has its `\n\n` inside the
search window `[max(10-2000,0), min(10+2000,12)] = [0,12]`, yet the code
returns a single chunk ending at `12` — the remainder (`12 ≤ 10 + 5`) is
absorbed whole and the paragraph break at `5` (cut point `7`) is never used. -/
theorem c5_counterexample :
    (chunkTextSmart? c5text 10 5).map (fun cs => cs.map fun c => c.metadata.endPosition)
      = some [12] ∧ (12 : Nat) ≠ 7 := by decide

/-- C5 (amended): the paragraph-break preference holds only when the remaining
text exceeds `maxChunkSize + overlapSize`: if `mcs + os < text.length` and the
paragraph-break search over the first window finds its best break `b` (the
last break-pattern index `> 0` in `text.substring(max(mcs-2000,0), min(mcs+2000, len))`),
then the first chunk ends exactly at `windowStart + b + 2`, not at the raw
`maxChunkSize` offset (unless they coincide).  Texts whose remainder fits in
`maxChunkSize + overlapSize` are absorbed whole, and a break at window index
`0` or outside the window (as in the spec's concrete 270,004-character string,
whose first `\n\n` at `90000` precedes the window start `93000`) is not used. -/
theorem c5_break_preference (text : JStr) (mcs os b : Nat) (hm : 0 < mcs)
    (habs : mcs + os < text.length)
    (hb : bestBreakOf paragraphPatterns (searchTextAt text 0 mcs) = some b) :
    ∃ cs, chunkTextSmart? text mcs os = some cs ∧
      cs.head?.map (fun c => c.metadata.endPosition) = some (windowStart 0 mcs + b + 2) := by
  have hlen0 : 0 < text.length := by omega
  have hnle : ¬ text.length ≤ mcs := by omega
  have hcE : computeChunkEnd text 0 mcs os = windowStart 0 mcs + b + 2 := by
    unfold computeChunkEnd
    rw [if_neg (by omega : ¬ (text.length - 0 ≤ mcs + os)), hb]
  have hstep : chunkLoop text mcs os (text.length + 1) 0 [] []
      = chunkLoop text mcs os text.length (computeChunkEnd text 0 mcs os)
          (nextPrevOverlap text os 0 (computeChunkEnd text 0 mcs os))
          [mkChunk text os 0 (computeChunkEnd text 0 mcs os) 0 []] := by
    simp [chunkLoop, hlen0]
  obtain ⟨tail, heq, hjoin, hbnd, hidx⟩ :=
    chunkLoopSpec text mcs os hm text.length (computeChunkEnd text 0 mcs os)
      (nextPrevOverlap text os 0 (computeChunkEnd text 0 mcs os))
      [mkChunk text os 0 (computeChunkEnd text 0 mcs os) 0 []]
      (Nat.sub_le _ _)
  have hfull : chunkTextSmart? text mcs os
      = some ((mkChunk text os 0 (computeChunkEnd text 0 mcs os) 0 [] :: tail).map fun c =>
          { c with metadata := { c.metadata with
              totalChunks := (mkChunk text os 0 (computeChunkEnd text 0 mcs os) 0 [] :: tail).length } }) := by
    rw [List.singleton_append] at heq
    simp only [chunkTextSmart?, if_neg hnle, hstep, heq, Option.map_some']
  refine ⟨_, hfull, ?_⟩
  simp only [List.map_cons, List.head?_cons, Option.map_some']
  exact congrArg some hcE

/-- Witness for C5 (amended) at `"A"*20 ++ "\n\n" ++ "B"*40`,
`maxChunkSize = 30`, `overlapSize = 5`: the best paragraph break is at window
index `20` and the first chunk ends at `0 + 20 + 2 = 22`, not at `30`. -/
theorem c5_witness :
    (0 < 30 ∧
     30 + 5 < (List.replicate 20 'A' ++ ['\n', '\n'] ++ List.replicate 40 'B').length ∧
     bestBreakOf paragraphPatterns
       (searchTextAt (List.replicate 20 'A' ++ ['\n', '\n'] ++ List.replicate 40 'B') 0 30)
       = some 20) ∧
    ∃ cs, chunkTextSmart? (List.replicate 20 'A' ++ ['\n', '\n'] ++ List.replicate 40 'B') 30 5
        = some cs ∧
      cs.head?.map (fun c => c.metadata.endPosition) = some (windowStart 0 30 + 20 + 2) :=
  ⟨⟨by decide, by decide, by decide⟩,
    c5_break_preference _ 30 5 20 (by decide) (by decide) (by decide)⟩

/-- C8: the code performs no validation of `maxChunkSize ≤ 0` at all — there
is no invalid-argument signal.  At the failing input `text = "AB"`,
`maxChunkSize = 0`, `overlapSize = 0`, every iteration picks
`chunkEnd = position + 0 = position`, pushes a zero-length chunk, and never
advances: the loop runs forever (`none` for every fuel), exactly the failure
mode the spec's rejection requirement is meant to exclude. -/
theorem c8_no_rejection_infinite_loop :
    (∀ fuel (ov : JStr) (acc : List SmartChunk), chunkLoop c8text 0 0 fuel 0 ov acc = none) ∧
    chunkTextSmart? c8text 0 0 = none := by
  have hloop : ∀ fuel (ov : JStr) (acc : List SmartChunk),
      chunkLoop c8text 0 0 fuel 0 ov acc = none := by
    intro fuel
    induction fuel with
    | zero =>
      intro ov acc
      simp [chunkLoop, c8text]
    | succ f ih =>
      intro ov acc
      have hcE : computeChunkEnd c8text 0 0 0 = 0 := by decide
      simp only [chunkLoop]
      rw [if_pos (by decide : (0 : Nat) < c8text.length), hcE]
      exact ih _ _
  refine ⟨hloop, ?_⟩
  unfold chunkTextSmart?
  rw [if_neg (by decide : ¬ c8text.length ≤ 0), hloop]
  rfl

/-! ### The merge boundary search -/

theorem findOverlapLen_le (mE cS : JStr) : ∀ j, findOverlapLen mE cS j ≤ j := by
  intro j
  induction j with
  | zero => simp [findOverlapLen]
  | succ n ih =>
    unfold findOverlapLen
    by_cases h50 : 50 < n + 1
    · rw [if_pos h50]
      by_cases hs : (jsIndexOf cS (jsSubstringFrom mE (mE.length - (n + 1)))).isSome = true
      · rw [if_pos hs]
      · rw [if_neg hs]
        omega
    · rw [if_neg h50]
      omega

theorem findOverlapLen_eq_findGreatest (mE cS : JStr) : ∀ j,
    findOverlapLen mE cS j
      = Nat.findGreatest
          (fun k => 50 < k ∧ (jsIndexOf cS (jsSubstringFrom mE (mE.length - k))).isSome = true)
          j := by
  intro j
  induction j with
  | zero => rfl
  | succ n ih =>
    rw [Nat.findGreatest_succ]
    unfold findOverlapLen
    by_cases h50 : 50 < n + 1
    · rw [if_pos h50]
      by_cases hs : (jsIndexOf cS (jsSubstringFrom mE (mE.length - (n + 1)))).isSome = true
      · rw [if_pos hs, if_pos ⟨h50, hs⟩]
      · rw [if_neg hs, if_neg (fun hc : 50 < n + 1 ∧ _ => hs hc.2), ih]
    · rw [if_neg h50, if_neg (fun hc : 50 < n + 1 ∧ _ => h50 hc.1)]
      symm
      rw [Nat.findGreatest_eq_zero_iff]
      intro m hm0 hmn hPm
      exact absurd hPm.1 (by omega)

theorem findGreatest_congr_agree (P Q : Nat → Prop) [DecidablePred P] [DecidablePred Q] :
    ∀ n, (∀ k, k ≤ n → (P k ↔ Q k)) → Nat.findGreatest P n = Nat.findGreatest Q n := by
  intro n
  induction n with
  | zero => intro _; rfl
  | succ m ih =>
    intro h
    rw [Nat.findGreatest_succ, Nat.findGreatest_succ]
    by_cases hp : P (m + 1)
    · rw [if_pos hp, if_pos ((h (m + 1) le_rfl).mp hp)]
    · rw [if_neg hp, if_neg (fun hq => hp ((h (m + 1) le_rfl).mpr hq)),
        ih (fun k hk => h k (by omega))]

theorem length_mergedEndOf (m : JStr) : (mergedEndOf m).length = min 500 m.length := by
  unfold mergedEndOf jsSubstringFrom
  rw [min_eq_left (Nat.sub_le _ _), List.length_drop]
  omega

theorem jsSubstringFrom_mergedEnd (m : JStr) (k : Nat) (hk : k ≤ 500) :
    jsSubstringFrom (mergedEndOf m) ((mergedEndOf m).length - k) = lastN k m := by
  unfold mergedEndOf jsSubstringFrom lastN
  rw [min_eq_left (Nat.sub_le _ _), min_eq_left (Nat.sub_le _ _), List.drop_drop]
  congr 1
  rw [List.length_drop]
  omega

theorem currentStartOf_take (c : JStr) : currentStartOf c = c.take 500 := by
  unfold currentStartOf jsSubstring
  have h0 : min 0 c.length = 0 := by omega
  have hb : min (min 500 c.length) c.length = min 500 c.length := by omega
  rw [h0, hb, if_pos (Nat.zero_le _), List.drop_zero]
  rcases Nat.le_total c.length 500 with h | h
  · rw [min_eq_right h, List.take_length, List.take_of_length_le h]
  · rw [min_eq_left h]

theorem mergeOverlapLen_eq_findGreatest (acc cur : JStr) :
    mergeOverlapLen acc cur
      = Nat.findGreatest
          (fun j => 50 < j ∧ (jsIndexOf (currentStartOf cur) (lastN j acc)).isSome = true)
          (min 200 acc.length) := by
  unfold mergeOverlapLen
  rw [findOverlapLen_eq_findGreatest]
  have hfuel : min 200 (mergedEndOf acc).length = min 200 acc.length := by
    rw [length_mergedEndOf]
    omega
  rw [hfuel]
  apply findGreatest_congr_agree
  intro k hk
  rw [jsSubstringFrom_mergedEnd acc k (by omega)]

theorem mergeOverlapLen_le (m c : JStr) :
    mergeOverlapLen m c ≤ 200 ∧ mergeOverlapLen m c ≤ m.length := by
  have h := findOverlapLen_le (mergedEndOf m) (currentStartOf c) (min 200 (mergedEndOf m).length)
  have hl := length_mergedEndOf m
  unfold mergeOverlapLen
  omega

theorem jsSubstring_zero (s : JStr) (b : Nat) (hb : b ≤ s.length) :
    jsSubstring s 0 b = s.take b := by
  unfold jsSubstring
  have h0 : min 0 s.length = 0 := by omega
  have hbb : min b s.length = b := by omega
  rw [h0, hbb, if_pos (Nat.zero_le _), List.drop_zero]

theorem mergeTwo_eq_mergeStep (a c : JStr) : mergeEditedChunks [a, c] = mergeStep a c := by
  simp only [mergeEditedChunks, List.foldl_cons, List.foldl_nil]

theorem mergeStep_dedup {a c : JStr} (h : 0 < mergeOverlapLen a c) :
    mergeStep a c = a.take (a.length - mergeOverlapLen a c) ++ c := by
  unfold mergeStep
  rw [if_pos h, jsSubstring_zero a _ (Nat.sub_le _ _)]

theorem mergeStep_plain {m c : JStr} (h : mergeStepPlainOk m c = true) :
    mergeStep m c = m ++ c := by
  unfold mergeStepPlainOk at h
  rw [Bool.and_eq_true] at h
  obtain ⟨h0, hsep⟩ := h
  have h0' : mergeOverlapLen m c = 0 := by simpa using h0
  unfold mergeStep
  rw [h0', if_neg (by omega : ¬ (0 : Nat) < 0)]
  simp only [Bool.or_eq_true] at hsep
  rcases hsep with ((h1 | h1) | h1) | h1
  · rw [if_neg (fun hA : ¬ _ ∧ ¬ _ => hA.1 h1)]
  · rw [if_neg (fun hA : ¬ _ ∧ ¬ _ => hA.2 h1)]
  · by_cases hA : ¬ endsWithChar m '\n' = true ∧ ¬ startsWithChar c '\n' = true
    · rw [if_pos hA, if_neg (fun hB : ¬ _ ∧ ¬ _ => hB.1 h1)]
    · rw [if_neg hA]
  · by_cases hA : ¬ endsWithChar m '\n' = true ∧ ¬ startsWithChar c '\n' = true
    · rw [if_pos hA, if_neg (fun hB : ¬ _ ∧ ¬ _ => hB.2 h1)]
    · rw [if_neg hA]

theorem mergeStep_length (m c : JStr) :
    m.length + c.length ≤ (mergeStep m c).length + 200 ∧
    (mergeStep m c).length ≤ m.length + c.length + 1 := by
  obtain ⟨hb200, hbm⟩ := mergeOverlapLen_le m c
  unfold mergeStep
  by_cases h : 0 < mergeOverlapLen m c
  · rw [if_pos h]
    have hlen : (jsSubstring m 0 (m.length - mergeOverlapLen m c)).length
        = m.length - mergeOverlapLen m c - 0 :=
      length_jsSubstring (Nat.zero_le _) (Nat.sub_le _ _)
    rw [List.length_append, hlen]
    omega
  · rw [if_neg h]
    split_ifs <;> (simp [List.length_append]; try omega)

theorem mergeEditedChunks_cons (x : JStr) (rest : List JStr) :
    mergeEditedChunks (x :: rest) = rest.foldl mergeStep x := by
  cases rest with
  | nil => rfl
  | cons y ys => rfl

theorem foldl_mergeStep_length : ∀ (rest : List JStr) (m : JStr),
    m.length + (rest.map List.length).sum ≤ (rest.foldl mergeStep m).length + 200 * rest.length ∧
    (rest.foldl mergeStep m).length ≤ m.length + (rest.map List.length).sum + rest.length := by
  intro rest
  induction rest with
  | nil =>
    intro m
    simp
  | cons c cs ih =>
    intro m
    obtain ⟨ih1, ih2⟩ := ih (mergeStep m c)
    obtain ⟨s1, s2⟩ := mergeStep_length m c
    simp only [List.foldl_cons, List.map_cons, List.sum_cons, List.length_cons]
    constructor <;> omega

theorem mergeIsPlainFrom_foldl : ∀ (rest : List JStr) (m : JStr),
    mergeIsPlainFrom m rest = true → rest.foldl mergeStep m = m ++ rest.flatten := by
  intro rest
  induction rest with
  | nil =>
    intro m _
    simp
  | cons c cs ih =>
    intro m h
    rw [show mergeIsPlainFrom m (c :: cs)
        = (mergeStepPlainOk m c && mergeIsPlainFrom (m ++ c) cs) from rfl] at h
    rw [Bool.and_eq_true] at h
    obtain ⟨h1, h2⟩ := h
    simp only [List.foldl_cons, List.flatten_cons]
    rw [mergeStep_plain h1, ih (m ++ c) h2, List.append_assoc]

/-! ### Claims C2, C6, C7, C10 (merger) -/

theorem lastN_append_right (l₁ l₂ : JStr) : lastN l₂.length (l₁ ++ l₂) = l₂ := by
  unfold lastN
  rw [List.length_append]
  have h : l₁.length + l₂.length - l₂.length = l₁.length := by omega
  rw [h, List.drop_left]

/-- C7 (amended): at a merge boundary the code searches for the last `j`
characters of the accumulator inside the leading `min(500, current.length)`
characters of `current` (the claim said `min(200, ...)`): the computed
`bestOverlap` equals the largest `j ≤ min(200, acc.length)` with `j > 50`
whose accumulator suffix occurs in that leading window (`0` when none), and
whenever it is positive the merge truncates exactly that many characters off
the accumulator's end and appends `current` in full. -/
theorem c7_overlap_search (acc cur : JStr) :
    mergeOverlapLen acc cur
      = Nat.findGreatest
          (fun j => 50 < j ∧ (jsIndexOf (currentStartOf cur) (lastN j acc)).isSome = true)
          (min 200 acc.length) ∧
    (0 < mergeOverlapLen acc cur →
      mergeEditedChunks [acc, cur] = acc.take (acc.length - mergeOverlapLen acc cur) ++ cur) := by
  refine ⟨mergeOverlapLen_eq_findGreatest acc cur, fun h => ?_⟩
  rw [mergeTwo_eq_mergeStep, mergeStep_dedup h]

/-- C7 counterexample: with `acc = "a"*51` and `cur = "z"*250 ++ "a"*51`, no
suffix of the accumulator occurs in the leading `min(200, len cur)` characters
of `cur` (the claim's window), yet the code detects an overlap — its needle
window is the leading `min(500, len cur)` characters, where the suffix occurs
at index 250. -/
theorem c7_counterexample :
    claimDetect (List.replicate 51 'a') (List.replicate 250 'z' ++ List.replicate 51 'a') = false ∧
    0 < mergeOverlapLen (List.replicate 51 'a')
        (List.replicate 250 'z' ++ List.replicate 51 'a') := by
  decide

/-- Witness for C7 (amended): `acc = "q"*60`, `cur = "q"*60 ++ "z"*4` — the
detected overlap is positive and the merge truncates it off `acc` and appends
`cur` in full. -/
theorem c7_witness :
    mergeEditedChunks [List.replicate 60 'q', List.replicate 60 'q' ++ List.replicate 4 'z']
      = (List.replicate 60 'q').take
          ((List.replicate 60 'q').length
            - mergeOverlapLen (List.replicate 60 'q')
                (List.replicate 60 'q' ++ List.replicate 4 'z'))
        ++ (List.replicate 60 'q' ++ List.replicate 4 'z') :=
  (c7_overlap_search _ _).2 (by decide)

/-- C6 (amended): the merge collapses a duplicated overlap only when it is
longer than 50 characters.  For every prefix `pre`, duplicated block `P` with
`51 ≤ |P| ≤ 200`, and continuation `rest`, if no accumulator suffix longer
than `|P|` (up to the search cap 200) occurs in the leading window of the
next chunk, then `merge([pre ++ P, P ++ rest]) = pre ++ P ++ rest` — the
duplicated `P` appears exactly once.  (The spec's 19-character phrase is below
the 51-character minimum, so it is not collapsed; see the counterexample.) -/
theorem c6_dedup_collapse (pre P rest : JStr)
    (h1 : 51 ≤ P.length) (h2 : P.length ≤ 200)
    (h3 : ∀ j, j ≤ 200 → P.length < j →
      jsIndexOf (currentStartOf (P ++ rest)) (lastN j (pre ++ P)) = none) :
    mergeEditedChunks [pre ++ P, P ++ rest] = pre ++ (P ++ rest) := by
  have hlen : (pre ++ P).length = pre.length + P.length := List.length_append _ _
  have hov : mergeOverlapLen (pre ++ P) (P ++ rest) = P.length := by
    rw [mergeOverlapLen_eq_findGreatest, Nat.findGreatest_eq_iff]
    refine ⟨by omega, fun _ => ⟨by omega, ?_⟩, ?_⟩
    · rw [lastN_append_right]
      have hpp : P <+: currentStartOf (P ++ rest) := by
        rw [currentStartOf_take, List.take_append_eq_append_take,
          List.take_of_length_le (by omega : P.length ≤ 500)]
        exact ⟨_, rfl⟩
      rw [jsIndexOf_of_prefix_eq_zero hpp]
      rfl
    · intro n hPn hnle hP
      have hn200 : n ≤ 200 := by omega
      have hs := hP.2
      rw [h3 n hn200 hPn] at hs
      simp at hs
  rw [mergeTwo_eq_mergeStep,
    mergeStep_dedup (show 0 < mergeOverlapLen (pre ++ P) (P ++ rest) by omega), hov]
  have htake : (pre ++ P).length - P.length = pre.length := by omega
  rw [htake, List.take_left]

/-- C6 counterexample: the spec's phrase `"the quick brown fox"` is only 19
characters, below the 51-character search minimum, so
`merge(["the quick brown fox", "the quick brown fox jumps"])` keeps both
copies (separated by an inserted space): the result contains the phrase twice
back-to-back instead of collapsing the overlap. -/
theorem c6_counterexample :
    mergeEditedChunks [quickFox, quickFox ++ " jumps".toList]
      = quickFox ++ ' ' :: (quickFox ++ " jumps".toList) ∧
    (jsIndexOf (mergeEditedChunks [quickFox, quickFox ++ " jumps".toList])
      (quickFox ++ ' ' :: quickFox)).isSome = true := by
  decide

/-- Witness for C6 (amended): `pre = "x "`, `P = "q"*60`, `rest = " zzzzz"` —
the 60-character duplicated block is collapsed to a single occurrence. -/
theorem c6_witness :
    mergeEditedChunks [['x', ' '] ++ List.replicate 60 'q',
        List.replicate 60 'q' ++ (' ' :: List.replicate 5 'z')]
      = ['x', ' '] ++ (List.replicate 60 'q' ++ (' ' :: List.replicate 5 'z')) :=
  c6_dedup_collapse ['x', ' '] (List.replicate 60 'q') (' ' :: List.replicate 5 'z')
    (by decide) (by decide) (by decide)

/-- C2 (amended): the split/merge round trip reproduces the original text
exactly whenever re-merging the unmodified chunk texts takes the plain
concatenation path at every boundary — no suffix of length 51–200 of the
accumulated text reappears in the next chunk's leading 500-character window,
and each boundary already has a newline or space on one side (true e.g. when
every cut lands on a paragraph/sentence break).  Otherwise the merge heuristic
itself alters the text (see the counterexample). -/
theorem c2_round_trip (text : JStr) (mcs os : Nat) (hm : 0 < mcs) :
    ∃ cs, chunkTextSmart? text mcs os = some cs ∧
      (mergeIsPlain (cs.map fun c => c.text) = true →
        mergeEditedChunks (cs.map fun c => c.text) = text) := by
  obtain ⟨cs, hsome, hne, hjoin, _, _⟩ := chunkSmartSpec text mcs os hm
  refine ⟨cs, hsome, fun hplain => ?_⟩
  obtain ⟨x, rest, hx⟩ :=
    List.exists_cons_of_ne_nil (show cs.map (fun c => c.text) ≠ [] by simpa using hne)
  rw [hx, mergeEditedChunks_cons]
  rw [hx] at hplain
  rw [show mergeIsPlain (x :: rest) = mergeIsPlainFrom x rest from rfl] at hplain
  rw [mergeIsPlainFrom_foldl rest x hplain]
  have hflat : (cs.map fun c => c.text).flatten = text := hjoin
  rw [hx] at hflat
  rw [← List.flatten_cons]
  exact hflat

/-- C2 counterexample: round-trip identity fails in general.  For the
154-character text `"A"*154` with `maxChunkSize = 51`, `overlapSize = 1`
(valid parameters), the chunks are `["A"*51, "A"*51, "A"*52]`; at each merge
boundary the 51-character suffix of the accumulator spuriously matches inside
the next chunk, the de-duplication removes genuine content, and the merge
returns `"A"*52 ≠ "A"*154`. -/
theorem c2_counterexample :
    (chunkTextSmart? c2text 51 1).map (fun cs => mergeEditedChunks (cs.map fun c => c.text))
      = some (List.replicate 52 'A') ∧
    List.replicate 52 'A' ≠ c2text := by
  decide

/-- Witness for C2 (amended): `"aaaa.\nbbbb.\ncc"` with `maxChunkSize = 8`,
`overlapSize = 1` splits at the last `.\n` into two chunks, every merge
boundary is plain, and the round trip reproduces the text. -/
theorem c2_witness :
    (chunkTextSmart? w2text 8 1).map (fun cs => mergeEditedChunks (cs.map fun c => c.text))
      = some w2text := by
  obtain ⟨cs, hcs, himp⟩ := c2_round_trip w2text 8 1 (by decide)
  have hconc : chunkTextSmart? w2text 8 1 = some w2chunks := by decide
  rw [hconc] at hcs
  have hcseq : w2chunks = cs := Option.some.inj hcs
  subst hcseq
  rw [hconc, Option.map_some']
  exact congrArg some (himp (by decide))

/-- C10: merge output length bounds — for every non-empty list of `k` edited
texts, `mergeEditedChunks` returns a string of length at least
`(sum of input lengths) - 200·(k-1)` and at most `(sum) + (k-1)`: each
boundary removes at most 200 characters (the overlap-search cap) and inserts
at most one separating space, and otherwise appends each input in full. -/
theorem c10_merge_length_bounds (l : List JStr) (h : l ≠ []) :
    (l.map List.length).sum ≤ (mergeEditedChunks l).length + 200 * (l.length - 1) ∧
    (mergeEditedChunks l).length ≤ (l.map List.length).sum + (l.length - 1) := by
  obtain ⟨x, rest, rfl⟩ := List.exists_cons_of_ne_nil h
  rw [mergeEditedChunks_cons]
  obtain ⟨h1, h2⟩ := foldl_mergeStep_length rest x
  simp only [List.map_cons, List.sum_cons, List.length_cons]
  constructor <;> omega

/-- Witness for C10 at `["ab", "cd"]`: the merge is `"ab cd"` of length 5,
within `[4 - 200, 4 + 1]`. -/
theorem c10_witness :
    (["ab".toList, "cd".toList] : List JStr) ≠ [] ∧
    ((["ab".toList, "cd".toList].map List.length).sum
        ≤ (mergeEditedChunks ["ab".toList, "cd".toList]).length
          + 200 * (["ab".toList, "cd".toList].length - 1) ∧
      (mergeEditedChunks ["ab".toList, "cd".toList]).length
        ≤ (["ab".toList, "cd".toList].map List.length).sum
          + (["ab".toList, "cd".toList].length - 1)) :=
  ⟨by decide, c10_merge_length_bounds _ (by decide)⟩

/-! ### Claim C3 (length validator) -/

theorem jsSplitWhiteF_succ_ne_nil (fuel : Nat) (s : JStr) : jsSplitWhiteF (fuel + 1) s ≠ [] := by
  unfold jsSplitWhiteF
  split
  · exact List.cons_ne_nil _ _
  · exact List.cons_ne_nil _ _

/-- A JS `split` always yields at least one token (the empty string splits to
`[""]`), so the validator's word count is at least `1` and the ratio's
denominator is never zero. -/
theorem one_le_trimSplitLen (s : JStr) : 1 ≤ trimSplitLen s := by
  have h := jsSplitWhiteF_succ_ne_nil (jsTrim s).length (jsTrim s)
  unfold trimSplitLen jsSplitWhite
  exact List.length_pos.mpr h

/-- C3 counterexample: `validateEditedLength("", "word", 10)` reports
`isValid = true` with `ratio = 100` — not `isValid = false` with `ratio = 0`
as claimed: the JS split of an empty original yields one empty token, so the
original counts as 1 word, same as `"word"`. -/
theorem c3_counterexample :
    (validateEditedLength [] "word".toList 10).isValid = true ∧
    (validateEditedLength [] "word".toList 10).ratio = 100 := by
  have hw : trimSplitLen "word".toList = 1 := by decide
  have ho : trimSplitLen ([] : JStr) = 1 := rfl
  constructor
  · simp only [validateEditedLength, hw, ho, Nat.cast_one, div_one, one_mul, decide_eq_true_eq]
    norm_num
  · simp only [validateEditedLength, hw, ho, Nat.cast_one, div_one, one_mul]

/-- C3 (amended): `validateEditedLength` never divides by zero — an empty
original counts as one (empty) token, so with an empty original the ratio is
`100 × editedTokenCount` (the edited side counting an empty string as one
token too) and, for `0 ≤ tolerance < 100`, `isValid` holds iff the edited
text has exactly one token; in particular `validateEditedLength("", "", t)`
reports `isValid = true` with `ratio = 100`, and
`validateEditedLength("", "word", t)` also reports `isValid = true` with
`ratio = 100` (not `false`/`0`). -/
theorem c3_validator_empty_original (edited : JStr) (tol : ℚ) (h0 : 0 ≤ tol) (h1 : tol < 100) :
    (validateEditedLength [] edited tol).ratio = 100 * (trimSplitLen edited : ℚ) ∧
    ((validateEditedLength [] edited tol).isValid = true ↔ trimSplitLen edited = 1) ∧
    (validateEditedLength [] [] tol).isValid = true ∧
    (validateEditedLength [] [] tol).ratio = 100 := by
  have ho : trimSplitLen ([] : JStr) = 1 := rfl
  have he1 : 1 ≤ trimSplitLen edited := one_le_trimSplitLen edited
  refine ⟨?_, ?_, ?_, ?_⟩
  · simp only [validateEditedLength, ho, Nat.cast_one, div_one]
    ring
  · simp only [validateEditedLength, ho, Nat.cast_one, div_one, decide_eq_true_eq]
    constructor
    · intro habs
      by_contra hne
      have he2 : 2 ≤ trimSplitLen edited := by omega
      have he2' : (2 : ℚ) ≤ (trimSplitLen edited : ℚ) := by exact_mod_cast he2
      have habs' := abs_le.mp habs
      have := habs'.1
      linarith
    · intro he
      rw [he]
      simp only [Nat.cast_one, one_mul]
      simpa using h0
  · simp only [validateEditedLength, ho, Nat.cast_one, div_one, decide_eq_true_eq, one_mul]
    simpa using h0
  · simp only [validateEditedLength, ho, Nat.cast_one, div_one, one_mul]

/-- Witness for C3 (amended) at `edited = "word"`, `tolerance = 10`. -/
theorem c3_witness :
    ((0 : ℚ) ≤ 10 ∧ (10 : ℚ) < 100) ∧
    ((validateEditedLength [] "word".toList 10).ratio = 100 * (trimSplitLen "word".toList : ℚ) ∧
     ((validateEditedLength [] "word".toList 10).isValid = true ↔ trimSplitLen "word".toList = 1) ∧
     (validateEditedLength [] [] 10).isValid = true ∧
     (validateEditedLength [] [] 10).ratio = 100) :=
  ⟨⟨by norm_num, by norm_num⟩,
    c3_validator_empty_original "word".toList 10 (by norm_num) (by norm_num)⟩
